import Mathlib

/-!
Verification of the patch-synchronization engine of TranslationToolkitLite
(src/TranslationPatcher.py) against its natural-language specification.

Strings are modelled as lists of characters (`Str`), file paths as lists of
path segments (`Path`), and the filesystem as an association list from paths
to abstract contents (`FS`, contents are `Nat`).  The MD5 fingerprint and the
external xdelta tool are opaque to the engine, so they enter the model as
function parameters `hash : Nat → Nat` and `xd : Nat → Nat → Nat`; being Lean
functions they are automatically deterministic, matching the contract that
equal inputs yield byte-equal outputs.
-/

namespace TranslationPatcher

/-- A string, modelled as its list of characters. -/
abbrev Str := List Char

/-- A file path, modelled as its list of path segments. -/
abbrev Path := List Str

/-! ## Folder taxonomy: `splitFolder` / `joinFolder` -/

/-- Python's `str.split(c)`: split a string at every occurrence of the
separator character, keeping empty parts, always returning at least one
part. -/
def splitChar (c : Char) : Str → List Str
  | [] => [[]]
  | x :: xs =>
    if x = c then [] :: splitChar c xs
    else
      match splitChar c xs with
      | [] => [[x]]
      | y :: ys => (x :: y) :: ys

/-- States of the scanner for the regular expression tail after `v\d`:
`s0` just completed a group (may end or see a dot), `s1` just read a dot
(needs a digit), `s2` inside a digit run after a dot. -/
inductive VSt where
  | s0 | s1 | s2
deriving Repr, DecidableEq

/-- Scanner for the tail of `re.match('^v\d(\.\d+)*$', ·)` after the leading
`v` and single digit were consumed.  As in Python, `$` also accepts a single
newline at the very end of the string; `\d` is modelled as an ASCII digit. -/
def vscan : VSt → Str → Bool
  | VSt.s0, [] => true
  | VSt.s0, ['\n'] => true
  | VSt.s0, '.' :: r => vscan VSt.s1 r
  | VSt.s0, _ => false
  | VSt.s1, [] => false
  | VSt.s1, c :: r => if c.isDigit then vscan VSt.s2 r else false
  | VSt.s2, [] => true
  | VSt.s2, ['\n'] => true
  | VSt.s2, '.' :: r => vscan VSt.s1 r
  | VSt.s2, c :: r => if c.isDigit then vscan VSt.s2 r else false

/-- Truthiness of `re.match('^v\d(\.\d+)*$', s)` as evaluated by the source:
a `v`, exactly one digit, then zero or more groups of a dot followed by one
or more digits, where the end anchor also tolerates one trailing newline. -/
def matchesVersion : Str → Bool
  | 'v' :: c :: rest => c.isDigit && vscan VSt.s0 rest
  | _ => false

/-- Scanner for the spec's version grammar tail: like `vscan` but the string
must end exactly after the last digit (no trailing-newline tolerance). -/
def vgscan : VSt → Str → Bool
  | VSt.s0, [] => true
  | VSt.s0, '.' :: r => vgscan VSt.s1 r
  | VSt.s0, _ => false
  | VSt.s1, [] => false
  | VSt.s1, c :: r => if c.isDigit then vgscan VSt.s2 r else false
  | VSt.s2, [] => true
  | VSt.s2, '.' :: r => vgscan VSt.s1 r
  | VSt.s2, c :: r => if c.isDigit then vgscan VSt.s2 r else false

/-- Modelled from the spec: exact membership in the version grammar
`v\d(\.\d+)*` (§6 "Directory naming grammar"), used to state the naming
round-trip claim in the spec's own terms. -/
def versionGrammar : Str → Bool
  | 'v' :: c :: rest => c.isDigit && vgscan VSt.s0 rest
  | _ => false

/-- Result of `splitFolder`: the dictionary `{folder, version?, lang?}`. -/
structure FolderParts where
  folder : Str
  version : Option Str
  lang : Option Str
deriving Repr, DecidableEq

/-- Python `splitFolder(folder)`: split on `'_'`; the first part is the base; a
second part is the version if it matches the version pattern and the
language otherwise; a third part, when present, is stored as the language. -/
def splitFolder (folder : Str) : FolderParts :=
  let a := splitChar '_' folder
  let p0 : FolderParts := { folder := a.headD [], version := none, lang := none }
  let p1 : FolderParts :=
    match a[1]? with
    | some s => if matchesVersion s then { p0 with version := some s } else { p0 with lang := some s }
    | none => p0
  match a[2]? with
  | some s => { p1 with lang := some s }
  | none => p1

/-- Python truthiness of an optional string argument: `None` and the empty
string are falsy. -/
def truthyS : Option Str → Bool
  | none => false
  | some s => decide (s ≠ [])

/-- Python `joinFolder(folder, language, version)`: append `_version` and then
`_language`, each only when the argument is truthy. -/
def joinFolder (folder : Str) (language : Option Str) (version : Option Str) : Str :=
  let name := folder
  let name := if truthyS version then name ++ '_' :: version.getD [] else name
  if truthyS language then name ++ '_' :: language.getD [] else name

/-! ### Basic lemmas about `splitChar` -/

theorem splitChar_ne_nil (c : Char) (s : Str) : splitChar c s ≠ [] := by
  induction s with
  | nil => simp [splitChar]
  | cons x xs ih =>
    simp only [splitChar]
    split
    · simp
    · match h : splitChar c xs with
      | [] => simp
      | y :: ys => simp

theorem splitChar_of_not_mem {c : Char} {s : Str} (h : c ∉ s) :
    splitChar c s = [s] := by
  induction s with
  | nil => rfl
  | cons x xs ih =>
    simp only [List.mem_cons, not_or] at h
    have hx : ¬ x = c := fun hc => h.1 (hc ▸ rfl)
    simp only [splitChar, if_neg hx, ih h.2]

theorem splitChar_append {c : Char} {xs : Str} (ys : Str) (h : c ∉ xs) :
    splitChar c (xs ++ c :: ys) = xs :: splitChar c ys := by
  induction xs with
  | nil => simp [splitChar]
  | cons x xt ih =>
    simp only [List.mem_cons, not_or] at h
    have hx : ¬ x = c := fun hc => h.1 (hc ▸ rfl)
    have ihe := ih h.2
    simp only [List.cons_append, splitChar, if_neg hx, List.append_eq, ihe]

theorem splitChar_three {b x y : Str} (hb : '_' ∉ b) (hx : '_' ∉ x) (hy : '_' ∉ y) :
    splitChar '_' (b ++ '_' :: x ++ '_' :: y) = [b, x, y] := by
  have h1 : b ++ '_' :: x ++ '_' :: y = b ++ '_' :: (x ++ '_' :: y) := by simp
  rw [h1, splitChar_append _ hb, splitChar_append _ hx, splitChar_of_not_mem hy]

theorem matchesVersion_ne_nil {s : Str} (h : matchesVersion s = true) : s ≠ [] := by
  intro he
  subst he
  simp [matchesVersion] at h

/-! ### Evaluating `splitFolder` on explicit part lists -/

theorem splitFolder_one {f b : Str} (h : splitChar '_' f = [b]) :
    splitFolder f = { folder := b, version := none, lang := none } := by
  simp [splitFolder, h]

theorem splitFolder_two {f b x : Str} (h : splitChar '_' f = [b, x]) :
    splitFolder f =
      if matchesVersion x then { folder := b, version := some x, lang := none }
      else { folder := b, version := none, lang := some x } := by
  simp only [splitFolder, h, List.getElem?_cons_zero, List.getElem?_cons_succ,
    List.getElem?_nil, List.headD]

theorem splitFolder_three {f b x y : Str} (h : splitChar '_' f = [b, x, y]) :
    splitFolder f =
      if matchesVersion x then { folder := b, version := some x, lang := some y }
      else { folder := b, version := none, lang := some y } := by
  simp only [splitFolder, h, List.getElem?_cons_zero, List.getElem?_cons_succ,
    List.getElem?_nil, List.headD]
  split <;> rfl

/-! ### Evaluating `joinFolder` -/

theorem joinFolder_none_none (b : Str) : joinFolder b none none = b := by
  simp [joinFolder, truthyS]

theorem joinFolder_lang_none {b ls : Str} (h : ls ≠ []) :
    joinFolder b (some ls) none = b ++ '_' :: ls := by
  simp [joinFolder, truthyS, h]

theorem joinFolder_none_ver {b vs : Str} (h : vs ≠ []) :
    joinFolder b none (some vs) = b ++ '_' :: vs := by
  simp [joinFolder, truthyS, h]

theorem joinFolder_lang_ver {b ls vs : Str} (hl : ls ≠ []) (hv : vs ≠ []) :
    joinFolder b (some ls) (some vs) = b ++ '_' :: vs ++ '_' :: ls := by
  simp [joinFolder, truthyS, hl, hv]

/-! ## Claim C1 -/

/-- Claim C1, as stated, is refuted by the trailing-newline tolerance of
Python's `$` anchor: the language token `"v1\n"` does not belong to the
version grammar `v\d(\.\d+)*`, contains no underscore and is non-empty, yet
`splitFolder` applied to `joinFolder` of base `"b"` and language `"v1\n"`
classifies that token as a version,
so the round trip does not recover `lang = "v1\n"`. -/
theorem roundtrip_newline_cex :
    versionGrammar ['v', '1', '\n'] = false ∧
    ('_' ∉ ['v', '1', '\n']) ∧ (['v', '1', '\n'] : Str) ≠ [] ∧ ('_' ∉ ['b']) ∧
    splitFolder (joinFolder ['b'] (some ['v', '1', '\n']) none) ≠
      { folder := ['b'], version := none, lang := some ['v', '1', '\n'] } ∧
    splitFolder (joinFolder ['b'] (some ['v', '1', '\n']) none) =
      { folder := ['b'], version := some ['v', '1', '\n'], lang := none } := by
  decide

/-- Claim C1 (amended): the round trip
`splitFolder (joinFolder b l v) = {folder := b, version := v, lang := l}`
holds for all underscore-free tokens where `v` is unset or accepted by the
code's version pattern and `l` is unset or a non-empty string rejected by
the code's version pattern (the pattern, via Python's `$`, also accepts a
version token followed by one trailing newline — the amendment replaces
"matches the grammar" by "is accepted by the pattern check"). -/
theorem roundtrip_amended (b : Str) (l v : Option Str)
    (hb : '_' ∉ b)
    (hv : ∀ vs, v = some vs → matchesVersion vs = true ∧ '_' ∉ vs)
    (hl : ∀ ls, l = some ls → ls ≠ [] ∧ matchesVersion ls = false ∧ '_' ∉ ls) :
    splitFolder (joinFolder b l v) = { folder := b, version := v, lang := l } := by
  match l, v with
  | none, none =>
    rw [joinFolder_none_none, splitFolder_one (splitChar_of_not_mem hb)]
  | none, some vs =>
    obtain ⟨hm, hvs⟩ := hv vs rfl
    rw [joinFolder_none_ver (matchesVersion_ne_nil hm)]
    rw [splitFolder_two (by rw [splitChar_append _ hb, splitChar_of_not_mem hvs])]
    rw [if_pos hm]
  | some ls, none =>
    obtain ⟨hne, hm, hls⟩ := hl ls rfl
    rw [joinFolder_lang_none hne]
    rw [splitFolder_two (by rw [splitChar_append _ hb, splitChar_of_not_mem hls])]
    rw [if_neg (by simp [hm])]
  | some ls, some vs =>
    obtain ⟨hm, hvs⟩ := hv vs rfl
    obtain ⟨hne, hml, hls⟩ := hl ls rfl
    rw [joinFolder_lang_ver hne (matchesVersion_ne_nil hm)]
    rw [splitFolder_three (splitChar_three hb hvs hls)]
    rw [if_pos hm]

/-- Witness for the amended C1 at `b = "Script"`, `l = "EN"`, `v = "v1.1"`. -/
theorem roundtrip_amended_witness :
    splitFolder (joinFolder "Script".toList (some "EN".toList) (some "v1.1".toList)) =
      { folder := "Script".toList, version := some "v1.1".toList, lang := some "EN".toList } :=
  roundtrip_amended "Script".toList (some "EN".toList) (some "v1.1".toList)
    (by decide)
    (by intro vs h; cases h; exact ⟨by decide, by decide⟩)
    (by intro ls h; cases h; exact ⟨by decide, by decide, by decide⟩)

/-! ## Claim C2 -/

/-- Claim C2 counterexample: in `splitFolder`, the third-segment assignment
is not guarded by the second segment being a version.  For `"b_EN_DE"`,
where neither `"EN"` nor `"DE"` matches the version pattern, the parsed
language is the third segment `"DE"`, not the second segment `"EN"` as the
claim states. -/
theorem thirdSegment_cex :
    matchesVersion "EN".toList = false ∧ matchesVersion "DE".toList = false ∧
    splitFolder "b_EN_DE".toList =
      { folder := "b".toList, version := none, lang := some "DE".toList } ∧
    (splitFolder "b_EN_DE".toList).lang ≠ some "EN".toList := by
  decide

/-- Claim C2 (amended): the third underscore-separated segment, when
present, is always assigned as the language, whether or not the second
segment was recognized as a version; for `base_X_Y` with `X` not a version
token the result is `{folder := base, lang := Y}` with no version. -/
theorem thirdSegment_amended (b x y : Str) (hb : '_' ∉ b) (hx : '_' ∉ x) (hy : '_' ∉ y)
    (hvx : matchesVersion x = false) :
    splitFolder (b ++ '_' :: x ++ '_' :: y) =
      { folder := b, version := none, lang := some y } := by
  rw [splitFolder_three (splitChar_three hb hx hy), if_neg (by simp [hvx])]

/-- Witness for the amended C2 at `base = "Script"`, `X = "EN"`, `Y = "DE"`. -/
theorem thirdSegment_amended_witness :
    splitFolder ("Script".toList ++ '_' :: "EN".toList ++ '_' :: "DE".toList) =
      { folder := "Script".toList, version := none, lang := some "DE".toList } :=
  thirdSegment_amended "Script".toList "EN".toList "DE".toList
    (by decide) (by decide) (by decide) (by decide)

/-! ## Filesystem model -/

/-- A filesystem: an association list from paths to abstract file contents.
The first entry for a path is its current content. -/
abbrev FS := List (Path × Nat)

/-- Read a file's content (`open`/`hash` source side), `none` if absent. -/
def fsGet (fs : FS) (p : Path) : Option Nat :=
  (fs.find? (fun e => decide (e.1 = p))).map Prod.snd

/-- Python `os.path.exists`. -/
def fsExists (fs : FS) (p : Path) : Bool := (fsGet fs p).isSome

/-- Write (or overwrite) a file. -/
def fsSet (fs : FS) (p : Path) (c : Nat) : FS :=
  (p, c) :: fs.filter (fun e => decide (e.1 ≠ p))

/-- Python `os.remove`. -/
def fsRemove (fs : FS) (p : Path) : FS :=
  fs.filter (fun e => decide (e.1 ≠ p))

theorem find?_filter_ne {fs : FS} {p q : Path} (h : q ≠ p) :
    (fs.filter (fun e => decide (e.1 ≠ p))).find? (fun e => decide (e.1 = q)) =
      fs.find? (fun e => decide (e.1 = q)) := by
  induction fs with
  | nil => rfl
  | cons e fs ih =>
    by_cases h1 : e.1 = p
    · have hf : (decide (e.1 ≠ p)) = false := by simp [h1]
      have hq : (decide (e.1 = q)) = false := by simp [h1]; exact fun hc => h hc.symm
      rw [List.filter_cons, hf]
      simp only [Bool.false_eq_true, if_false]
      rw [List.find?_cons, hq, ih]
    · have hf : (decide (e.1 ≠ p)) = true := by simp [h1]
      rw [List.filter_cons, hf]
      simp only [if_true]
      rw [List.find?_cons, List.find?_cons, ih]

theorem fsGet_set_self (fs : FS) (p : Path) (c : Nat) :
    fsGet (fsSet fs p c) p = some c := by
  simp [fsGet, fsSet, List.find?_cons]

theorem fsGet_set_ne {q p : Path} (fs : FS) (c : Nat) (h : q ≠ p) :
    fsGet (fsSet fs p c) q = fsGet fs q := by
  have hq : (decide ((p, c).1 = q)) = false := by simp; exact fun hc => h hc.symm
  simp only [fsGet, fsSet, List.find?_cons, hq, find?_filter_ne h]

theorem fsGet_remove_self (fs : FS) (p : Path) :
    fsGet (fsRemove fs p) p = none := by
  simp only [fsGet, fsRemove]
  have hnone : (fs.filter (fun e => decide (e.1 ≠ p))).find? (fun e => decide (e.1 = p)) = none := by
    rw [List.find?_eq_none]
    intro e he
    have h2 := List.of_mem_filter he
    simp only [decide_eq_true_eq] at h2
    simp [h2]
  rw [hnone]
  rfl

theorem fsGet_remove_ne {q p : Path} (fs : FS) (h : q ≠ p) :
    fsGet (fsRemove fs p) q = fsGet fs q := by
  simp only [fsGet, fsRemove, find?_filter_ne h]

theorem fsGet_mem {fs : FS} {p : Path} {c : Nat} (h : fsGet fs p = some c) :
    p ∈ fs.map Prod.fst := by
  unfold fsGet at h
  cases hf : fs.find? (fun e => decide (e.1 = p)) with
  | none => rw [hf] at h; simp at h
  | some e =>
    have h1 := List.find?_some hf
    have h2 := List.mem_of_find?_eq_some hf
    simp only [decide_eq_true_eq] at h1
    exact h1 ▸ List.mem_map_of_mem Prod.fst h2

/-! ## Path extension helpers -/

/-- The string `".xdelta"` as a character list. -/
def xdExt : Str := ".xdelta".toList

/-- The string `".temp"` as a character list. -/
def tmpExt : Str := ".temp".toList

/-- Append a string to the last segment of a path: `path + ext` in Python,
acting on the path's string form. -/
def addExt : Path → Str → Path
  | [], _ => []
  | [x], e => [x ++ e]
  | x :: y :: xs, e => x :: addExt (y :: xs) e

/-- Apply a function to the last segment of a path. -/
def mapLast (f : Str → Str) : Path → Path
  | [] => []
  | [x] => [f x]
  | x :: y :: xs => x :: mapLast f (y :: xs)

/-- Python `path[:-len('.xdelta')]` on a path's string form. -/
def stripXdelta (p : Path) : Path :=
  mapLast (fun s => s.take (s.length - xdExt.length)) p

/-- Last segment of a path (empty for the empty path). -/
def lastSeg (p : Path) : Str := p.getLast?.getD []

theorem addExt_ne_nil {p : Path} (e : Str) (h : p ≠ []) : addExt p e ≠ [] := by
  match p with
  | [x] => simp [addExt]
  | x :: y :: xs => simp [addExt]

theorem lastSeg_addExt {p : Path} (e : Str) (h : p ≠ []) :
    lastSeg (addExt p e) = lastSeg p ++ e := by
  match p with
  | [x] => simp [addExt, lastSeg]
  | x :: y :: xs =>
    have ih := @lastSeg_addExt (y :: xs) e (by simp)
    simp only [addExt, lastSeg] at ih ⊢
    rw [List.getLast?_cons_cons]
    rw [show (x :: addExt (y :: xs) e) = x :: addExt (y :: xs) e from rfl]
    have hne := @addExt_ne_nil (y :: xs) e (by simp)
    match hx : addExt (y :: xs) e with
    | [] => exact absurd hx hne
    | z :: zs =>
      rw [List.getLast?_cons_cons]
      rw [hx] at ih
      exact ih

theorem addExt_xd_ne_tmp {p q : Path} (hp : p ≠ []) (hq : q ≠ []) :
    addExt p xdExt ≠ addExt q tmpExt := by
  intro h
  have h1 : lastSeg (addExt p xdExt) = lastSeg (addExt q tmpExt) := by rw [h]
  rw [lastSeg_addExt _ hp, lastSeg_addExt _ hq] at h1
  have h2 : (lastSeg p ++ xdExt).getLast? = (lastSeg q ++ tmpExt).getLast? := by rw [h1]
  have ha : (lastSeg p ++ xdExt).getLast? = some 'a' := by
    rw [List.getLast?_append]; rfl
  have hb : (lastSeg q ++ tmpExt).getLast? = some 'p' := by
    rw [List.getLast?_append]; rfl
  rw [ha, hb] at h2
  simp at h2

theorem addExt_ne_self {p : Path} {e : Str} (hp : p ≠ []) (he : e ≠ []) :
    addExt p e ≠ p := by
  intro h
  have h1 : lastSeg (addExt p e) = lastSeg p := by rw [h]
  rw [lastSeg_addExt _ hp] at h1
  have h2 := congrArg List.length h1
  simp only [List.length_append] at h2
  have : e.length = 0 := by omega
  exact he (List.length_eq_zero.mp this)

theorem addExt_inj {e : Str} : ∀ {p q : Path}, p ≠ [] → q ≠ [] →
    addExt p e = addExt q e → p = q
  | [x], [y], _, _, h => by
    simp only [addExt, List.cons.injEq, and_true] at h
    rw [List.append_cancel_right h]
  | [x], y1 :: y2 :: ys, _, _, h => by
    simp only [addExt, List.cons.injEq] at h
    exact absurd h.2.symm (@addExt_ne_nil (y2 :: ys) e (by simp))
  | x1 :: x2 :: xs, [y], _, _, h => by
    simp only [addExt, List.cons.injEq] at h
    exact absurd h.2 (@addExt_ne_nil (x2 :: xs) e (by simp))
  | x1 :: x2 :: xs, y1 :: y2 :: ys, _, _, h => by
    simp only [addExt, List.cons.injEq] at h
    have := @addExt_inj e (x2 :: xs) (y2 :: ys) (by simp) (by simp) h.2
    rw [h.1, this]

/-! ## PatchCreator: `createXDeltaPatches` -/

/-- The counter dictionary of `createXDeltaPatches`; a key the source never
incremented is reported as `0` by `ctr.get(key, 0)`. -/
structure Ctr where
  create : Nat
  update : Nat
  delete : Nat
  keep : Nat
  skip : Nat
deriving Repr, DecidableEq

/-- The fresh `ctr = dict()` at the start of a run. -/
def Ctr.zero : Ctr := ⟨0, 0, 0, 0, 0⟩

/-- One item yielded by `loopFiles(Params.xdeltaFolders(), original_language)`:
the edit file (whose first segment is the edit folder) together with the
corresponding original folder name. -/
structure Item where
  origFolder : Str
  editFile : Path
deriving Repr, DecidableEq

/-- Python `extpath(edit_file)`: the path with its folder part removed. -/
def simpleName (it : Item) : Path := it.editFile.drop 1

/-- Python `join(orig_folder, *simplename)`. -/
def origPath (it : Item) : Path := it.origFolder :: simpleName it

/-- Python `edit_file + '.xdelta'`. -/
def patchPath (it : Item) : Path := addExt it.editFile xdExt

/-- Python `patch_file + '.temp'`. -/
def ctempPath (it : Item) : Path := addExt (patchPath it) tmpExt

/-- The body of the `createXDeltaPatches` loop for one enumerated edit file.
`hash` is the MD5 fingerprint, `xd o e` the patch the external tool writes
for original content `o` and edit content `e`.  Returns `none` exactly where
the Python code would raise an `IOError` reading a missing file. -/
def createStep (hash : Nat → Nat) (xd : Nat → Nat → Nat) (fo : Bool)
    (st : FS × Ctr) (it : Item) : Option (FS × Ctr) :=
  let fs := st.1
  let c := st.2
  match fsGet fs (origPath it) with
  | none => some (fs, c)
  | some o =>
    match fsGet fs it.editFile with
    | none => none
    | some e =>
      if hash o = hash e then
        if fsExists fs (patchPath it) then
          some (fsRemove fs (patchPath it), { c with delete := c.delete + 1 })
        else
          some (fs, { c with skip := c.skip + 1 })
      else
        if fsExists fs (patchPath it) then
          let fs1 := fsSet fs (ctempPath it) (xd o e)
          match fsGet fs1 (patchPath it), fsGet fs1 (ctempPath it) with
          | some pc, some tc =>
            if fo = false ∧ hash pc = hash tc then
              some (fsRemove fs1 (ctempPath it), { c with keep := c.keep + 1 })
            else
              some (fsSet (fsRemove (fsRemove fs1 (patchPath it)) (ctempPath it))
                      (patchPath it) tc,
                    { c with update := c.update + 1 })
          | _, _ => none
        else
          some (fsSet fs (patchPath it) (xd o e), { c with create := c.create + 1 })

/-- Source `createXDeltaPatches`: fold `createStep` over the enumerated edit files
(the enumeration order of `loopFiles` is taken as the input list). -/
def createXDeltaPatches (hash : Nat → Nat) (xd : Nat → Nat → Nat) (fo : Bool)
    (items : List Item) (st : FS × Ctr) : Option (FS × Ctr) :=
  match items with
  | [] => some st
  | it :: rest =>
    match createStep hash xd fo st it with
    | none => none
    | some st2 => createXDeltaPatches hash xd fo rest st2

/-! ## PatchApplier: `applyXDeltaPatches` -/

/-- The counter dictionary of `applyXDeltaPatches`. -/
structure ACtr where
  create : Nat
  update : Nat
  keep : Nat
deriving Repr, DecidableEq

def ACtr.zero : ACtr := ⟨0, 0, 0⟩

/-- One enumerated patch file together with its original folder. -/
structure PItem where
  origFolder : Str
  patchFile : Path
deriving Repr, DecidableEq

/-- Python `extpath(patch_file)` with `'.xdelta'` stripped from the last segment. -/
def applySimpleName (it : PItem) : Path := stripXdelta (it.patchFile.drop 1)

/-- The original file for a patch item. -/
def applyOrigPath (it : PItem) : Path := it.origFolder :: applySimpleName it

/-- Python `patch_file[:-len('.xdelta')]`. -/
def outputPath (it : PItem) : Path := stripXdelta it.patchFile

/-- Python `output_file + '.temp'`. -/
def atempPath (it : PItem) : Path := addExt (outputPath it) tmpExt

/-- The body of the `applyXDeltaPatches` loop for one enumerated patch file;
`xda o pc` is the output the external tool reconstructs from original
content `o` and patch content `pc`. -/
def applyStep (hash : Nat → Nat) (xda : Nat → Nat → Nat) (fo : Bool)
    (st : FS × ACtr) (it : PItem) : Option (FS × ACtr) :=
  let fs := st.1
  let c := st.2
  match fsGet fs (applyOrigPath it) with
  | none => some (fs, c)
  | some o =>
    match fsGet fs it.patchFile with
    | none => none
    | some pc =>
      if fsExists fs (outputPath it) then
        let fs1 := fsSet fs (atempPath it) (xda o pc)
        match fsGet fs1 (outputPath it), fsGet fs1 (atempPath it) with
        | some oc, some tc =>
          if fo = false ∧ hash oc = hash tc then
            some (fsRemove fs1 (atempPath it), { c with keep := c.keep + 1 })
          else
            some (fsSet (fsRemove (fsRemove fs1 (outputPath it)) (atempPath it))
                    (outputPath it) tc,
                  { c with update := c.update + 1 })
        | _, _ => none
      else
        some (fsSet fs (outputPath it) (xda o pc), { c with create := c.create + 1 })

/-- Source `applyXDeltaPatches`: fold `applyStep` over the enumerated patch files. -/
def applyXDeltaPatches (hash : Nat → Nat) (xda : Nat → Nat → Nat) (fo : Bool)
    (items : List PItem) (st : FS × ACtr) : Option (FS × ACtr) :=
  match items with
  | [] => some st
  | it :: rest =>
    match applyStep hash xda fo st it with
    | none => none
    | some st2 => applyXDeltaPatches hash xda fo rest st2

/-! ## Claim C3 -/

/-- Claim C3: for an enumerated edit file whose original exists with
`hash original = hash edit`, the step deletes the patch and counts `delete`
when the patch exists, and otherwise changes nothing and counts `skip`; in
both cases the result does not depend on the diff engine `xd` (it is not
invoked) and no patch is created or updated. -/
theorem createStep_equal_hash (hash : Nat → Nat) (xd : Nat → Nat → Nat) (fo : Bool)
    (fs : FS) (c : Ctr) (it : Item) (o e : Nat)
    (ho : fsGet fs (origPath it) = some o)
    (he : fsGet fs it.editFile = some e)
    (hh : hash o = hash e) :
    createStep hash xd fo (fs, c) it =
      some (if fsExists fs (patchPath it)
            then (fsRemove fs (patchPath it), { c with delete := c.delete + 1 })
            else (fs, { c with skip := c.skip + 1 })) := by
  simp only [createStep, ho, he, if_pos hh]
  by_cases hp : fsExists fs (patchPath it) = true <;> simp [hp]

def c3fs : FS :=
  [(["O".toList, "a".toList], 5), (["E".toList, "a".toList], 5),
   (["E".toList, "a.xdelta".toList], 9)]

def c3it : Item := ⟨"O".toList, ["E".toList, "a".toList]⟩

/-- Witness for C3: a reverted edit (content equal to the original) with a
stale patch present; the step removes the patch and counts one `delete`. -/
theorem createStep_equal_hash_witness :
    createStep (fun n => n) (fun _ e => e) false (c3fs, Ctr.zero) c3it =
      some (fsRemove c3fs (patchPath c3it), { Ctr.zero with delete := 1 }) := by
  have h := createStep_equal_hash (fun n => n) (fun _ e => e) false c3fs Ctr.zero c3it 5 5
    (by decide) (by decide) rfl
  rw [h]
  decide

/-! ## Claim C8 -/

theorem createStep_missing_orig {hash : Nat → Nat} {xd : Nat → Nat → Nat} {fo : Bool}
    {fs : FS} {c : Ctr} {it : Item} (h : fsGet fs (origPath it) = none) :
    createStep hash xd fo (fs, c) it = some (fs, c) := by
  simp only [createStep, h]

theorem applyStep_missing_orig {hash : Nat → Nat} {xda : Nat → Nat → Nat} {fo : Bool}
    {fs : FS} {c : ACtr} {it : PItem} (h : fsGet fs (applyOrigPath it) = none) :
    applyStep hash xda fo (fs, c) it = some (fs, c) := by
  simp only [applyStep, h]

/-- Claim C8: in both `createXDeltaPatches` and `applyXDeltaPatches`, an
enumerated item whose original file does not exist is skipped (with a
warning): the filesystem and the counters are unchanged for that item and
the run continues exactly as the run over the remaining items. -/
theorem missing_original_skips
    (hash hasha : Nat → Nat) (xd xda : Nat → Nat → Nat) (fo foa : Bool)
    (it : Item) (items : List Item) (pit : PItem) (pitems : List PItem)
    (fs fsa : FS) (c : Ctr) (ca : ACtr)
    (h1 : fsGet fs (origPath it) = none)
    (h2 : fsGet fsa (applyOrigPath pit) = none) :
    createXDeltaPatches hash xd fo (it :: items) (fs, c) =
      createXDeltaPatches hash xd fo items (fs, c) ∧
    applyXDeltaPatches hasha xda foa (pit :: pitems) (fsa, ca) =
      applyXDeltaPatches hasha xda foa pitems (fsa, ca) := by
  constructor
  · simp only [createXDeltaPatches, createStep_missing_orig h1]
  · simp only [applyXDeltaPatches, applyStep_missing_orig h2]

def c8fs : FS := [(["E".toList, "a".toList], 1)]
def c8fsa : FS := [(["E".toList, "a.xdelta".toList], 1)]
def c8it : Item := ⟨"O".toList, ["E".toList, "a".toList]⟩
def c8pit : PItem := ⟨"O".toList, ["E".toList, "a.xdelta".toList]⟩

/-- Witness for C8: one edit file and one patch file whose original folder
`"O"` holds no corresponding file; both runs finish unchanged. -/
theorem missing_original_skips_witness :
    createXDeltaPatches (fun n => n) (fun _ e => e) false [c8it] (c8fs, Ctr.zero) =
      some (c8fs, Ctr.zero) ∧
    applyXDeltaPatches (fun n => n) (fun o p => o + p) false [c8pit] (c8fsa, ACtr.zero) =
      some (c8fsa, ACtr.zero) := by
  have h := missing_original_skips (fun n => n) (fun n => n) (fun _ e => e) (fun o p => o + p)
    false false c8it [] c8pit [] c8fs c8fsa Ctr.zero ACtr.zero (by decide) (by decide)
  exact ⟨h.1, h.2⟩

/-! ## Claim C10 -/

/-- Sum of the five counters of a create-patches run. -/
def ctrSum (c : Ctr) : Nat := c.create + c.update + c.delete + c.keep + c.skip

/-- Number of enumerated edit files whose original file exists. -/
def countOrig (fs : FS) (items : List Item) : Nat :=
  (items.filter (fun it => fsExists fs (origPath it))).length

/-- Separation of an item list: originals and edit files are distinct from
every patch and temp file of the run.  This holds for the real enumeration,
where originals live in the original-language folder and patches and temp
files in the edit folders. -/
def SepItems (items : List Item) : Prop :=
  ∀ a ∈ items, ∀ b ∈ items,
    origPath a ≠ patchPath b ∧ origPath a ≠ ctempPath b ∧
    a.editFile ≠ patchPath b ∧ a.editFile ≠ ctempPath b

theorem SepItems.tail {it : Item} {items : List Item} (h : SepItems (it :: items)) :
    SepItems items :=
  fun a ha b hb => h a (List.mem_cons_of_mem it ha) b (List.mem_cons_of_mem it hb)

theorem SepItems.editFile_ne_nil {it : Item} {items : List Item}
    (h : SepItems (it :: items)) : it.editFile ≠ [] := by
  intro h0
  have hp := (h it (List.mem_cons_self it items) it (List.mem_cons_self it items)).2.2.1
  exact hp (by simp [patchPath, h0, addExt])

theorem createStep_some_frame (hash : Nat → Nat) (xd : Nat → Nat → Nat) (fo : Bool)
    (fs : FS) (c : Ctr) (it : Item) (o : Nat)
    (ho : fsGet fs (origPath it) = some o)
    (he : fsExists fs it.editFile = true)
    (hne : it.editFile ≠ []) :
    ∃ fs2 c2, createStep hash xd fo (fs, c) it = some (fs2, c2) ∧
      ctrSum c2 = ctrSum c + 1 ∧
      ∀ p, p ≠ patchPath it → p ≠ ctempPath it → fsGet fs2 p = fsGet fs p := by
  obtain ⟨e, he'⟩ : ∃ e, fsGet fs it.editFile = some e :=
    Option.isSome_iff_exists.mp (by simpa [fsExists] using he)
  have hpne : patchPath it ≠ [] := addExt_ne_nil xdExt hne
  have htp : ctempPath it ≠ patchPath it := addExt_ne_self hpne (by decide)
  by_cases hh : hash o = hash e
  · by_cases hp : fsExists fs (patchPath it) = true
    · refine ⟨fsRemove fs (patchPath it), { c with delete := c.delete + 1 }, ?_, ?_, ?_⟩
      · simp [createStep, ho, he', hh, hp]
      · simp [ctrSum]; omega
      · intro p h1 h2
        exact fsGet_remove_ne fs h1
    · refine ⟨fs, { c with skip := c.skip + 1 }, ?_, ?_, ?_⟩
      · simp [createStep, ho, he', hh, hp]
      · simp [ctrSum]; omega
      · intro p h1 h2; rfl
  · by_cases hp : fsExists fs (patchPath it) = true
    · obtain ⟨pc, hpc⟩ : ∃ pc, fsGet fs (patchPath it) = some pc :=
        Option.isSome_iff_exists.mp (by simpa [fsExists] using hp)
      have hg1 : fsGet (fsSet fs (ctempPath it) (xd o e)) (patchPath it) = some pc := by
        rw [fsGet_set_ne fs (xd o e) (fun hx => htp hx.symm), hpc]
      have hg2 : fsGet (fsSet fs (ctempPath it) (xd o e)) (ctempPath it) = some (xd o e) :=
        fsGet_set_self fs (ctempPath it) (xd o e)
      by_cases hk : fo = false ∧ hash pc = hash (xd o e)
      · refine ⟨fsRemove (fsSet fs (ctempPath it) (xd o e)) (ctempPath it),
          { c with keep := c.keep + 1 }, ?_, ?_, ?_⟩
        · simp [createStep, ho, he', hh, hp, hg1, hg2, hk]
        · simp [ctrSum]; omega
        · intro p h1 h2
          rw [fsGet_remove_ne _ h2, fsGet_set_ne _ _ h2]
      · refine ⟨fsSet (fsRemove (fsRemove (fsSet fs (ctempPath it) (xd o e)) (patchPath it))
            (ctempPath it)) (patchPath it) (xd o e),
          { c with update := c.update + 1 }, ?_, ?_, ?_⟩
        · simp [createStep, ho, he', hh, hp, hg1, hg2, hk]
        · simp [ctrSum]; omega
        · intro p h1 h2
          rw [fsGet_set_ne _ _ h1, fsGet_remove_ne _ h2, fsGet_remove_ne _ h1,
            fsGet_set_ne _ _ h2]
    · refine ⟨fsSet fs (patchPath it) (xd o e), { c with create := c.create + 1 }, ?_, ?_, ?_⟩
      · simp [createStep, ho, he', hh, hp]
      · simp [ctrSum]; omega
      · intro p h1 h2
        exact fsGet_set_ne _ _ h1

theorem countOrig_congr {fs fs2 : FS} {items : List Item}
    (h : ∀ b ∈ items, fsGet fs2 (origPath b) = fsGet fs (origPath b)) :
    countOrig fs2 items = countOrig fs items := by
  unfold countOrig
  rw [List.filter_congr]
  intro a ha
  simp only [fsExists, h a ha]

theorem createRun_sum (hash : Nat → Nat) (xd : Nat → Nat → Nat) (fo : Bool) :
    ∀ (items : List Item) (fs : FS) (c : Ctr),
    SepItems items →
    (∀ it ∈ items, fsExists fs it.editFile = true) →
    ∃ fs2 c2, createXDeltaPatches hash xd fo items (fs, c) = some (fs2, c2) ∧
      ctrSum c2 = ctrSum c + countOrig fs items ∧
      ∀ p, (∀ b ∈ items, p ≠ patchPath b ∧ p ≠ ctempPath b) → fsGet fs2 p = fsGet fs p
  | [], fs, c, _, _ => ⟨fs, c, rfl, by simp [countOrig], fun p _ => rfl⟩
  | it :: rest, fs, c, hsep, hed => by
    have hne := hsep.editFile_ne_nil
    cases horig : fsGet fs (origPath it) with
    | none =>
      obtain ⟨fs3, c3, hrun, hsum, hframe⟩ :=
        createRun_sum hash xd fo rest fs c hsep.tail
          (fun b hb => hed b (List.mem_cons_of_mem it hb))
      refine ⟨fs3, c3, ?_, ?_, ?_⟩
      · simp only [createXDeltaPatches, createStep_missing_orig horig, hrun]
      · have hcount : countOrig fs (it :: rest) = countOrig fs rest := by
          unfold countOrig
          rw [List.filter_cons]
          simp [fsExists, horig]
        rw [hcount]
        exact hsum
      · intro p hp
        exact hframe p (fun b hb => hp b (List.mem_cons_of_mem it hb))
    | some o =>
      obtain ⟨fs2, c2, hstep, hsum2, hframe2⟩ :=
        createStep_some_frame hash xd fo fs c it o horig
          (hed it (List.mem_cons_self it rest)) hne
      have hedit2 : ∀ b ∈ rest, fsExists fs2 b.editFile = true := by
        intro b hb
        have hb' := List.mem_cons_of_mem it hb
        have hsb := hsep b hb' it (List.mem_cons_self it rest)
        rw [fsExists, hframe2 b.editFile hsb.2.2.1 hsb.2.2.2]
        exact hed b hb'
      obtain ⟨fs3, c3, hrun, hsum3, hframe3⟩ :=
        createRun_sum hash xd fo rest fs2 c2 hsep.tail hedit2
      refine ⟨fs3, c3, ?_, ?_, ?_⟩
      · simp only [createXDeltaPatches, hstep, hrun]
      · have hcount2 : countOrig fs2 rest = countOrig fs rest := by
          apply countOrig_congr
          intro b hb
          have hsb := hsep b (List.mem_cons_of_mem it hb) it (List.mem_cons_self it rest)
          exact hframe2 (origPath b) hsb.1 hsb.2.1
        have hcount : countOrig fs (it :: rest) = countOrig fs rest + 1 := by
          unfold countOrig
          rw [List.filter_cons]
          simp [fsExists, horig]
        rw [hcount, hsum3, hcount2, hsum2]
        omega
      · intro p hp
        rw [hframe3 p (fun b hb => hp b (List.mem_cons_of_mem it hb))]
        exact hframe2 p (hp it (List.mem_cons_self it rest)).1 (hp it (List.mem_cons_self it rest)).2

/-- Claim C10: in a run of `createXDeltaPatches`, every enumerated edit file
with an existing original increments exactly one of the five counters and a
file with a missing original increments none, so the sum of the returned
counters equals the number of enumerated edit files whose original exists.
Stated for separated item lists (originals and edits distinct from all patch
and temp paths), which is how `loopFiles` enumerates real trees. -/
theorem createXDeltaPatches_counter_sum (hash : Nat → Nat) (xd : Nat → Nat → Nat)
    (fo : Bool) (items : List Item) (fs : FS)
    (hsep : SepItems items)
    (hed : ∀ it ∈ items, fsExists fs it.editFile = true) :
    ∃ fs2 c2, createXDeltaPatches hash xd fo items (fs, Ctr.zero) = some (fs2, c2) ∧
      c2.create + c2.update + c2.delete + c2.keep + c2.skip = countOrig fs items := by
  obtain ⟨fs2, c2, hrun, hsum, _⟩ := createRun_sum hash xd fo items fs Ctr.zero hsep hed
  exact ⟨fs2, c2, hrun, by simpa [ctrSum, Ctr.zero] using hsum⟩

def c10fs : FS :=
  [(["O".toList, "a".toList], 1), (["E".toList, "a".toList], 2),
   (["E".toList, "b".toList], 7)]

def c10items : List Item :=
  [⟨"O".toList, ["E".toList, "a".toList]⟩, ⟨"O".toList, ["E".toList, "b".toList]⟩]

/-- Witness for C10: two enumerated edits, one with an existing original
(counted) and one whose original is missing (not counted). -/
theorem createXDeltaPatches_counter_sum_witness :
    ∃ fs2 c2, createXDeltaPatches (fun n => n) (fun _ e => e) false c10items
        (c10fs, Ctr.zero) = some (fs2, c2) ∧
      c2.create + c2.update + c2.delete + c2.keep + c2.skip = countOrig c10fs c10items :=
  createXDeltaPatches_counter_sum (fun n => n) (fun _ e => e) false c10items c10fs
    (by unfold SepItems; decide) (by decide)

/-! ## Claim C4 -/

/-- A filesystem is stable for an item when, given its original exists, the
edit exists and the patch is in the state a completed create-patches pass
leaves it: absent when edit and original fingerprint equal, else present
with the fingerprint of a freshly generated patch. -/
def StableAt (hash : Nat → Nat) (xd : Nat → Nat → Nat) (fs : FS) (it : Item) : Prop :=
  ∀ o, fsGet fs (origPath it) = some o →
    ∃ e, fsGet fs it.editFile = some e ∧
      (hash o = hash e → fsGet fs (patchPath it) = none) ∧
      (hash o ≠ hash e → ∃ pc, fsGet fs (patchPath it) = some pc ∧ hash pc = hash (xd o e))

theorem StableAt.congr {hash : Nat → Nat} {xd : Nat → Nat → Nat} {fs fs2 : FS} {it : Item}
    (h : StableAt hash xd fs it)
    (h1 : fsGet fs2 (origPath it) = fsGet fs (origPath it))
    (h2 : fsGet fs2 it.editFile = fsGet fs it.editFile)
    (h3 : fsGet fs2 (patchPath it) = fsGet fs (patchPath it)) :
    StableAt hash xd fs2 it := by
  intro o ho
  rw [h1] at ho
  obtain ⟨e, he, hc1, hc2⟩ := h o ho
  refine ⟨e, by rw [h2]; exact he, fun hh => by rw [h3]; exact hc1 hh,
    fun hh => by rw [h3]; exact hc2 hh⟩

theorem SepItems.ne_nil {items : List Item} (h : SepItems items) :
    ∀ b ∈ items, b.editFile ≠ [] := by
  intro b hb h0
  have hp := (h b hb b hb).2.2.1
  exact hp (by simp [patchPath, h0, addExt])

/-- Patches of distinct edits are distinct. -/
theorem patchPath_inj {a b : Item} (ha : a.editFile ≠ []) (hb : b.editFile ≠ [])
    (h : a.editFile ≠ b.editFile) : patchPath a ≠ patchPath b :=
  fun hp => h (addExt_inj ha hb hp)

/-- A patch path is never a temp path. -/
theorem patchPath_ne_ctempPath {a b : Item} (ha : a.editFile ≠ []) (hb : b.editFile ≠ []) :
    patchPath a ≠ ctempPath b :=
  addExt_xd_ne_tmp ha (addExt_ne_nil xdExt hb)

/-- One `createStep` with an existing original (and `force_override` false)
leaves the filesystem stable for its item and only touches the item's patch
and temp paths. -/
theorem createStep_establishes (hash : Nat → Nat) (xd : Nat → Nat → Nat)
    (fs : FS) (c : Ctr) (it : Item) (o e : Nat)
    (ho : fsGet fs (origPath it) = some o)
    (he' : fsGet fs it.editFile = some e)
    (hne : it.editFile ≠ [])
    (hop : origPath it ≠ patchPath it) (hot : origPath it ≠ ctempPath it)
    (hep : it.editFile ≠ patchPath it) (het : it.editFile ≠ ctempPath it) :
    ∃ fs2 c2, createStep hash xd false (fs, c) it = some (fs2, c2) ∧
      (∀ p, p ≠ patchPath it → p ≠ ctempPath it → fsGet fs2 p = fsGet fs p) ∧
      fsGet fs2 (origPath it) = some o ∧
      fsGet fs2 it.editFile = some e ∧
      (hash o = hash e → fsGet fs2 (patchPath it) = none) ∧
      (hash o ≠ hash e → ∃ pc, fsGet fs2 (patchPath it) = some pc ∧
        hash pc = hash (xd o e)) := by
  have hpne : patchPath it ≠ [] := addExt_ne_nil xdExt hne
  have htp : ctempPath it ≠ patchPath it := addExt_ne_self hpne (by decide)
  by_cases hh : hash o = hash e
  · by_cases hp : fsExists fs (patchPath it) = true
    · refine ⟨fsRemove fs (patchPath it), { c with delete := c.delete + 1 }, ?_, ?_, ?_, ?_, ?_, ?_⟩
      · simp [createStep, ho, he', hh, hp]
      · intro p h1 h2; exact fsGet_remove_ne fs h1
      · rw [fsGet_remove_ne fs hop, ho]
      · rw [fsGet_remove_ne fs hep, he']
      · intro _; exact fsGet_remove_self fs (patchPath it)
      · intro hc; exact absurd hh hc
    · have hpn : fsGet fs (patchPath it) = none := by
        cases hfg : fsGet fs (patchPath it) with
        | none => rfl
        | some v => exact absurd (by simp [fsExists, hfg]) hp
      refine ⟨fs, { c with skip := c.skip + 1 }, ?_, ?_, ?_, ?_, ?_, ?_⟩
      · simp [createStep, ho, he', hh, hp]
      · intro p _ _; rfl
      · exact ho
      · exact he'
      · intro _; exact hpn
      · intro hc; exact absurd hh hc
  · by_cases hp : fsExists fs (patchPath it) = true
    · obtain ⟨pc, hpc⟩ : ∃ pc, fsGet fs (patchPath it) = some pc :=
        Option.isSome_iff_exists.mp (by simpa [fsExists] using hp)
      have hg1 : fsGet (fsSet fs (ctempPath it) (xd o e)) (patchPath it) = some pc := by
        rw [fsGet_set_ne fs (xd o e) (fun hx => htp hx.symm), hpc]
      have hg2 : fsGet (fsSet fs (ctempPath it) (xd o e)) (ctempPath it) = some (xd o e) :=
        fsGet_set_self fs (ctempPath it) (xd o e)
      by_cases hk : hash pc = hash (xd o e)
      · refine ⟨fsRemove (fsSet fs (ctempPath it) (xd o e)) (ctempPath it),
          { c with keep := c.keep + 1 }, ?_, ?_, ?_, ?_, ?_, ?_⟩
        · simp [createStep, ho, he', hh, hp, hg1, hg2, hk]
        · intro p h1 h2; rw [fsGet_remove_ne _ h2, fsGet_set_ne _ _ h2]
        · rw [fsGet_remove_ne _ hot, fsGet_set_ne _ _ hot, ho]
        · rw [fsGet_remove_ne _ het, fsGet_set_ne _ _ het, he']
        · intro hc; exact absurd hc hh
        · intro _
          refine ⟨pc, ?_, hk⟩
          rw [fsGet_remove_ne _ (fun hx => htp hx.symm), hg1]
      · refine ⟨fsSet (fsRemove (fsRemove (fsSet fs (ctempPath it) (xd o e)) (patchPath it))
            (ctempPath it)) (patchPath it) (xd o e),
          { c with update := c.update + 1 }, ?_, ?_, ?_, ?_, ?_, ?_⟩
        · simp [createStep, ho, he', hh, hp, hg1, hg2, hk]
        · intro p h1 h2
          rw [fsGet_set_ne _ _ h1, fsGet_remove_ne _ h2, fsGet_remove_ne _ h1,
            fsGet_set_ne _ _ h2]
        · rw [fsGet_set_ne _ _ hop, fsGet_remove_ne _ hot, fsGet_remove_ne _ hop,
            fsGet_set_ne _ _ hot, ho]
        · rw [fsGet_set_ne _ _ hep, fsGet_remove_ne _ het, fsGet_remove_ne _ hep,
            fsGet_set_ne _ _ het, he']
        · intro hc; exact absurd hc hh
        · intro _
          exact ⟨xd o e, fsGet_set_self _ _ _, rfl⟩
    · refine ⟨fsSet fs (patchPath it) (xd o e), { c with create := c.create + 1 }, ?_, ?_, ?_, ?_, ?_, ?_⟩
      · simp [createStep, ho, he', hh, hp]
      · intro p h1 _; exact fsGet_set_ne _ _ h1
      · rw [fsGet_set_ne _ _ hop, ho]
      · rw [fsGet_set_ne _ _ hep, he']
      · intro hc; exact absurd hc hh
      · intro _
        exact ⟨xd o e, fsGet_set_self _ _ _, rfl⟩

/-- After a full `createXDeltaPatches` pass with `force_override` false, the
filesystem is stable for every enumerated item, and only patch and temp
paths of the run were touched. -/
theorem createRun_establishes (hash : Nat → Nat) (xd : Nat → Nat → Nat) :
    ∀ (items : List Item) (fs : FS) (c : Ctr),
    List.Pairwise (fun a b => a.editFile ≠ b.editFile) items →
    SepItems items →
    (∀ it ∈ items, fsExists fs it.editFile = true) →
    ∃ fs1 c1, createXDeltaPatches hash xd false items (fs, c) = some (fs1, c1) ∧
      (∀ it ∈ items, StableAt hash xd fs1 it) ∧
      (∀ p, (∀ b ∈ items, p ≠ patchPath b ∧ p ≠ ctempPath b) → fsGet fs1 p = fsGet fs p)
  | [], fs, c, _, _, _ => ⟨fs, c, rfl, by simp, fun p _ => rfl⟩
  | it :: rest, fs, c, hpw, hsep, hed => by
    have hmem : it ∈ it :: rest := List.mem_cons_self it rest
    have hne : it.editFile ≠ [] := hsep.ne_nil it hmem
    have hself := hsep it hmem it hmem
    obtain ⟨hpw1, hpw2⟩ := List.pairwise_cons.mp hpw
    have hsepit : ∀ b ∈ rest, patchPath it ≠ patchPath b ∧ patchPath it ≠ ctempPath b := by
      intro b hb
      have hbne : b.editFile ≠ [] := hsep.ne_nil b (List.mem_cons_of_mem it hb)
      exact ⟨patchPath_inj hne hbne (hpw1 b hb), patchPath_ne_ctempPath hne hbne⟩
    cases horig : fsGet fs (origPath it) with
    | none =>
      obtain ⟨fs1, c1, hrun, hstable, hframe⟩ :=
        createRun_establishes hash xd rest fs c hpw2 hsep.tail
          (fun b hb => hed b (List.mem_cons_of_mem it hb))
      refine ⟨fs1, c1, ?_, ?_, ?_⟩
      · simp only [createXDeltaPatches, createStep_missing_orig horig, hrun]
      · intro b hb
        rcases List.mem_cons.mp hb with hbit | hbr
        · subst hbit
          intro o ho
          have : fsGet fs1 (origPath b) = fsGet fs (origPath b) := by
            apply hframe
            intro b2 hb2
            have hs := hsep b hmem b2 (List.mem_cons_of_mem b hb2)
            exact ⟨hs.1, hs.2.1⟩
          rw [this, horig] at ho
          exact absurd ho (by simp)
        · exact hstable b hbr
      · intro p hp
        exact hframe p (fun b hb => hp b (List.mem_cons_of_mem it hb))
    | some o =>
      obtain ⟨e, he'⟩ : ∃ e, fsGet fs it.editFile = some e :=
        Option.isSome_iff_exists.mp (by simpa [fsExists] using hed it hmem)
      obtain ⟨fs2, c2, hstep, hframe2, ho2, he2, hc1, hc2⟩ :=
        createStep_establishes hash xd fs c it o e horig he' hne
          hself.1 hself.2.1 hself.2.2.1 hself.2.2.2
      have hed2 : ∀ b ∈ rest, fsExists fs2 b.editFile = true := by
        intro b hb
        have hb' := List.mem_cons_of_mem it hb
        have hsb := hsep b hb' it hmem
        rw [fsExists, hframe2 b.editFile hsb.2.2.1 hsb.2.2.2]
        exact hed b hb'
      obtain ⟨fs3, c3, hrun, hstable, hframe3⟩ :=
        createRun_establishes hash xd rest fs2 c2 hpw2 hsep.tail hed2
      refine ⟨fs3, c3, ?_, ?_, ?_⟩
      · simp only [createXDeltaPatches, hstep, hrun]
      · intro b hb
        rcases List.mem_cons.mp hb with hbit | hbr
        · subst hbit
          have hgo : fsGet fs3 (origPath b) = fsGet fs2 (origPath b) := by
            apply hframe3
            intro b2 hb2
            have hs := hsep b hmem b2 (List.mem_cons_of_mem b hb2)
            exact ⟨hs.1, hs.2.1⟩
          have hge : fsGet fs3 b.editFile = fsGet fs2 b.editFile := by
            apply hframe3
            intro b2 hb2
            have hs := hsep b hmem b2 (List.mem_cons_of_mem b hb2)
            exact ⟨hs.2.2.1, hs.2.2.2⟩
          have hgp : fsGet fs3 (patchPath b) = fsGet fs2 (patchPath b) :=
            hframe3 (patchPath b) hsepit
          intro o' ho'
          rw [hgo, ho2] at ho'
          obtain rfl : o = o' := by injection ho'
          refine ⟨e, by rw [hge]; exact he2, fun hh => by rw [hgp]; exact hc1 hh,
            fun hh => ?_⟩
          obtain ⟨pc, hpc, hpch⟩ := hc2 hh
          exact ⟨pc, by rw [hgp]; exact hpc, hpch⟩
        · exact hstable b hbr
      · intro p hp
        rw [hframe3 p (fun b hb => hp b (List.mem_cons_of_mem it hb))]
        exact hframe2 p (hp it hmem).1 (hp it hmem).2

/-- A run over a stable filesystem (with `force_override` false) touches no
patch, performs no create, update or delete, and counts one `skip` or `keep`
per item with an existing original. -/
theorem createRun_stable_run (hash : Nat → Nat) (xd : Nat → Nat → Nat) :
    ∀ (items : List Item) (fs : FS) (c : Ctr),
    SepItems items →
    (∀ it ∈ items, StableAt hash xd fs it) →
    (∀ it ∈ items, fsExists fs it.editFile = true) →
    ∃ fs2 c2, createXDeltaPatches hash xd false items (fs, c) = some (fs2, c2) ∧
      c2.create = c.create ∧ c2.update = c.update ∧ c2.delete = c.delete ∧
      c2.skip + c2.keep = c.skip + c.keep + countOrig fs items ∧
      (∀ p, (∀ b ∈ items, p ≠ ctempPath b) → fsGet fs2 p = fsGet fs p)
  | [], fs, c, _, _, _ => ⟨fs, c, rfl, rfl, rfl, rfl, by simp [countOrig], fun p _ => rfl⟩
  | it :: rest, fs, c, hsep, hst, hed => by
    have hmem : it ∈ it :: rest := List.mem_cons_self it rest
    have hne : it.editFile ≠ [] := hsep.ne_nil it hmem
    have hpne : patchPath it ≠ [] := addExt_ne_nil xdExt hne
    have htp : ctempPath it ≠ patchPath it := addExt_ne_self hpne (by decide)
    cases horig : fsGet fs (origPath it) with
    | none =>
      obtain ⟨fs2, c2, hrun, q1, q2, q3, q4, hframe⟩ :=
        createRun_stable_run hash xd rest fs c hsep.tail
          (fun b hb => hst b (List.mem_cons_of_mem it hb))
          (fun b hb => hed b (List.mem_cons_of_mem it hb))
      refine ⟨fs2, c2, ?_, q1, q2, q3, ?_, ?_⟩
      · simp only [createXDeltaPatches, createStep_missing_orig horig, hrun]
      · have : countOrig fs (it :: rest) = countOrig fs rest := by
          unfold countOrig
          rw [List.filter_cons]
          simp [fsExists, horig]
        rw [this]
        exact q4
      · intro p hp
        exact hframe p (fun b hb => hp b (List.mem_cons_of_mem it hb))
    | some o =>
      obtain ⟨e, he', hc1, hc2⟩ := hst it hmem o horig
      have hcount : countOrig fs (it :: rest) = countOrig fs rest + 1 := by
        unfold countOrig
        rw [List.filter_cons]
        simp [fsExists, horig]
      by_cases hh : hash o = hash e
      · have hpn : fsGet fs (patchPath it) = none := hc1 hh
        have hstep : createStep hash xd false (fs, c) it =
            some (fs, { c with skip := c.skip + 1 }) := by
          simp [createStep, horig, he', hh, fsExists, hpn]
        obtain ⟨fs2, c2, hrun, q1, q2, q3, q4, hframe⟩ :=
          createRun_stable_run hash xd rest fs { c with skip := c.skip + 1 } hsep.tail
            (fun b hb => hst b (List.mem_cons_of_mem it hb))
            (fun b hb => hed b (List.mem_cons_of_mem it hb))
        refine ⟨fs2, c2, ?_, q1, q2, q3, ?_, ?_⟩
        · simp only [createXDeltaPatches, hstep, hrun]
        · rw [hcount]
          simp at q4
          omega
        · intro p hp
          exact hframe p (fun b hb => hp b (List.mem_cons_of_mem it hb))
      · obtain ⟨pc, hpc, hpch⟩ := hc2 hh
        have hfse : fsExists fs (patchPath it) = true := by simp [fsExists, hpc]
        have hg1 : fsGet (fsSet fs (ctempPath it) (xd o e)) (patchPath it) = some pc := by
          rw [fsGet_set_ne fs (xd o e) (fun hx => htp hx.symm), hpc]
        have hg2 : fsGet (fsSet fs (ctempPath it) (xd o e)) (ctempPath it) = some (xd o e) :=
          fsGet_set_self fs (ctempPath it) (xd o e)
        have hstep : createStep hash xd false (fs, c) it =
            some (fsRemove (fsSet fs (ctempPath it) (xd o e)) (ctempPath it),
              { c with keep := c.keep + 1 }) := by
          simp [createStep, horig, he', hh, hfse, hg1, hg2, hpch]
        have hframe1 : ∀ p, p ≠ ctempPath it →
            fsGet (fsRemove (fsSet fs (ctempPath it) (xd o e)) (ctempPath it)) p =
              fsGet fs p := by
          intro p h1
          rw [fsGet_remove_ne _ h1, fsGet_set_ne _ _ h1]
        have htrans : ∀ b ∈ rest,
            fsGet (fsRemove (fsSet fs (ctempPath it) (xd o e)) (ctempPath it)) (origPath b) =
              fsGet fs (origPath b) ∧
            fsGet (fsRemove (fsSet fs (ctempPath it) (xd o e)) (ctempPath it)) b.editFile =
              fsGet fs b.editFile ∧
            fsGet (fsRemove (fsSet fs (ctempPath it) (xd o e)) (ctempPath it)) (patchPath b) =
              fsGet fs (patchPath b) := by
          intro b hb
          have hb' := List.mem_cons_of_mem it hb
          have hsb := hsep b hb' it hmem
          have hbne : b.editFile ≠ [] := hsep.ne_nil b hb'
          exact ⟨hframe1 _ hsb.2.1, hframe1 _ hsb.2.2.2,
            hframe1 _ (patchPath_ne_ctempPath hbne hne)⟩
        obtain ⟨fs2, c2, hrun, q1, q2, q3, q4, hframe⟩ :=
          createRun_stable_run hash xd rest
            (fsRemove (fsSet fs (ctempPath it) (xd o e)) (ctempPath it))
            { c with keep := c.keep + 1 } hsep.tail
            (fun b hb => (hst b (List.mem_cons_of_mem it hb)).congr
              (htrans b hb).1 (htrans b hb).2.1 (htrans b hb).2.2)
            (fun b hb => by
              rw [fsExists, (htrans b hb).2.1]
              exact hed b (List.mem_cons_of_mem it hb))
        refine ⟨fs2, c2, ?_, q1, q2, q3, ?_, ?_⟩
        · simp only [createXDeltaPatches, hstep, hrun]
        · have hcount2 : countOrig
              (fsRemove (fsSet fs (ctempPath it) (xd o e)) (ctempPath it)) rest =
              countOrig fs rest := by
            apply countOrig_congr
            intro b hb
            exact (htrans b hb).1
          rw [hcount]
          rw [hcount2] at q4
          simp at q4
          omega
        · intro p hp
          rw [hframe p (fun b hb => hp b (List.mem_cons_of_mem it hb))]
          exact hframe1 p (hp it hmem)

/-- Claim C4 (amended): with `force_override` false, a second
`createXDeltaPatches` run over the same enumerated items, starting from the
filesystem the first run produced, performs no create, update or delete:
its counters satisfy `create = update = delete = 0` and `skip + keep` is the
number of items with an existing original.  (The external diff engine is a
function of its two inputs, hence deterministic; items are separated and
pairwise distinct as the real enumeration yields them.  The amendment
restricts the claim to `force_override = false`, which the counterexample
shows is necessary.) -/
theorem createXDeltaPatches_idempotent (hash : Nat → Nat) (xd : Nat → Nat → Nat)
    (items : List Item) (fs : FS)
    (hpw : List.Pairwise (fun a b => a.editFile ≠ b.editFile) items)
    (hsep : SepItems items)
    (hed : ∀ it ∈ items, fsExists fs it.editFile = true) :
    ∃ fs1 c1 fs2 c2,
      createXDeltaPatches hash xd false items (fs, Ctr.zero) = some (fs1, c1) ∧
      createXDeltaPatches hash xd false items (fs1, Ctr.zero) = some (fs2, c2) ∧
      c2.create = 0 ∧ c2.update = 0 ∧ c2.delete = 0 ∧
      c2.skip + c2.keep = countOrig fs1 items := by
  obtain ⟨fs1, c1, h1, hstable, hframe⟩ :=
    createRun_establishes hash xd items fs Ctr.zero hpw hsep hed
  have hed1 : ∀ it ∈ items, fsExists fs1 it.editFile = true := by
    intro b hb
    have : fsGet fs1 b.editFile = fsGet fs b.editFile := by
      apply hframe
      intro b2 hb2
      have hs := hsep b hb b2 hb2
      exact ⟨hs.2.2.1, hs.2.2.2⟩
    rw [fsExists, this]
    exact hed b hb
  obtain ⟨fs2, c2, h2, q1, q2, q3, q4, _⟩ :=
    createRun_stable_run hash xd items fs1 Ctr.zero hsep hstable hed1
  refine ⟨fs1, c1, fs2, c2, h1, h2, ?_, ?_, ?_, ?_⟩
  · simpa [Ctr.zero] using q1
  · simpa [Ctr.zero] using q2
  · simpa [Ctr.zero] using q3
  · simpa [Ctr.zero] using q4

def c4fs : FS := [(["O".toList, "a".toList], 1), (["E".toList, "a".toList], 2)]

def c4items : List Item := [⟨"O".toList, ["E".toList, "a".toList]⟩]

/-- Claim C4 counterexample: with `force_override = true` and a perfectly
deterministic diff engine, running `createXDeltaPatches` twice with no
change in between yields `update = 1` in the second run (the first run
creates the patch, the second rewrites it unconditionally), refuting
`update = 0` as the claim states it for arbitrary runs. -/
theorem createXDeltaPatches_forceOverride_cex :
    (Option.bind
        (createXDeltaPatches (fun n => n) (fun _ e => e) true c4items (c4fs, Ctr.zero))
        (fun st => createXDeltaPatches (fun n => n) (fun _ e => e) true c4items
          (st.1, Ctr.zero))).map (fun st => st.2.update) = some 1 := by
  decide

/-- Witness for the amended C4 on a one-item tree with a changed edit. -/
theorem createXDeltaPatches_idempotent_witness :
    ∃ fs1 c1 fs2 c2,
      createXDeltaPatches (fun n => n) (fun _ e => e) false c4items (c4fs, Ctr.zero) =
        some (fs1, c1) ∧
      createXDeltaPatches (fun n => n) (fun _ e => e) false c4items (fs1, Ctr.zero) =
        some (fs2, c2) ∧
      c2.create = 0 ∧ c2.update = 0 ∧ c2.delete = 0 ∧
      c2.skip + c2.keep = countOrig fs1 c4items :=
  createXDeltaPatches_idempotent (fun n => n) (fun _ e => e) c4items c4fs
    (by decide) (by unfold SepItems; decide) (by decide)

/-! ## DistributionResolver -/

/-- Leading-dot stripping of `os.path.splitext`: leading dots of a file name
are part of the root, never of the extension. -/
def dropLeadingDots : Str → Str
  | '.' :: r => dropLeadingDots r
  | r => r

/-- The suffix starting at the last dot of a string, if any. -/
def extSuffix : Str → Option Str
  | [] => none
  | c :: r =>
    match extSuffix r with
    | some e => some e
    | none => if c = '.' then some (c :: r) else none

/-- Python `os.path.splitext(name)[1]` for a bare file name. -/
def extOf (s : Str) : Str := (extSuffix (dropLeadingDots s)).getD []

/-- The files `os.walk` yields under a top-level directory, filtered by the
extension allow-list (paths in the model carry the directory as their first
segment). -/
def walkDir (fs : FS) (dir : Str) (types : List Str) : List Path :=
  (fs.map Prod.fst).filter
    (fun p => decide (p.head? = some dir) && decide (extOf (lastSeg p) ∈ types))

/-- One iteration of the candidate-collection loop of `collectFiles`: record
the file under its simple name unless that simple name is already claimed. -/
def collectAdd (acc : List (Path × Path)) (file : Path) : List (Path × Path) :=
  let s := file.drop 1
  if acc.any (fun e => decide (e.2 = s)) then acc else acc ++ [(file, s)]

/-- The candidate-collection loop of `collectFiles`: preferred languages in
priority order, then the language-less folder as fallback. -/
def collectLoop (fs : FS) (folder : Str) (types : List Str) (ver : Option Str)
    (languages : List Str) : List (Path × Path) :=
  (languages.map some ++ [none]).foldl
    (fun acc lang => (walkDir fs (joinFolder folder lang ver) types).foldl collectAdd acc)
    []

/-- Source `collectFiles` of `distributeOtherFiles`: collect candidates, then drop
those whose content equals the corresponding file of the original-language
baseline folder. -/
def collectFiles (hash : Nat → Nat) (fs : FS) (languages : List Str) (origLang : Str)
    (folder : Str) (types : List Str) (ver : Option Str) : List (Path × Path) :=
  let origF := joinFolder folder (some origLang) none
  (collectLoop fs folder types ver languages).filter
    (fun e => !(fsExists fs (origF :: e.2)) ||
      !(decide ((fsGet fs (origF :: e.2)).map hash = (fsGet fs e.1).map hash)))

/-- The candidate list of one tier: `collectFiles`, and — when this is the
base tier and a second tier is in play — drop candidates whose simple name
appears among the matching files of the second tier's original-language
folder. -/
def tierCandidates (hash : Nat → Nat) (fs : FS) (languages : List Str) (origLang : Str)
    (folder : Str) (types : List Str) (versions : List (Option Str)) (ver : Option Str) :
    List (Path × Path) :=
  let files := collectFiles hash fs languages origLang folder types ver
  match versions, ver with
  | _ :: v2 :: _, none =>
    let updateFiles :=
      (walkDir fs (joinFolder folder (some origLang) v2) types).map (fun p => p.drop 1)
    files.filter (fun e => !(decide (e.2 ∈ updateFiles)))
  | _, _ => files

/-- The counter dictionary of `distributeOtherFiles`. -/
structure DCtr where
  add : Nat
  update : Nat
  keep : Nat
deriving Repr, DecidableEq

def DCtr.zero : DCtr := ⟨0, 0, 0⟩

/-- The copy loop body of `distributeOtherFiles` for one collected file. -/
def copyStep (hash : Nat → Nat) (fo : Bool) (destFolder : Path)
    (st : FS × DCtr) (e : Path × Path) : Option (FS × DCtr) :=
  let fs := st.1
  let c := st.2
  let destFile := destFolder ++ e.2
  if fsExists fs destFile then
    match fsGet fs destFile, fsGet fs e.1 with
    | some dc, some sc =>
      if fo = false ∧ hash dc = hash sc then
        some (fs, { c with keep := c.keep + 1 })
      else
        some (fsSet (fsRemove fs destFile) destFile sc, { c with update := c.update + 1 })
    | _, _ => none
  else
    match fsGet fs e.1 with
    | some sc => some (fsSet fs destFile sc, { c with add := c.add + 1 })
    | none => none

/-- The copy loop of one tier of `distributeOtherFiles`. -/
def distributeTier (hash : Nat → Nat) (fo : Bool) (destFolder : Path) :
    List (Path × Path) → FS × DCtr → Option (FS × DCtr)
  | [], st => some st
  | e :: rest, st =>
    match copyStep hash fo destFolder st e with
    | none => none
    | some st2 => distributeTier hash fo destFolder rest st2

/-- The version loop of `distributeOtherFiles` for one configured folder. -/
def distFolderVers (hash : Nat → Nat) (fo : Bool) (languages : List Str) (origLang : Str)
    (destFolder : Path) (folder : Str) (types : List Str) (versions : List (Option Str)) :
    List (Option Str) → FS × DCtr → Option (FS × DCtr)
  | [], st => some st
  | ver :: rest, st =>
    match distributeTier hash fo destFolder
        (tierCandidates hash st.1 languages origLang folder types versions ver) st with
    | none => none
    | some st2 =>
      distFolderVers hash fo languages origLang destFolder folder types versions rest st2

/-- Source `distributeOtherFiles`: iterate the configured folders and the version
tiers, collecting and copying; `parent` is the configured `PARENT` mapping
and `destRoot` the destination directory. -/
def distributeOtherFiles (hash : Nat → Nat) (fo : Bool) (languages : List Str)
    (origLang : Str) (destRoot : Path) (parent : Str → Path)
    (versions : List (Option Str)) :
    List (Str × List Str) → FS × DCtr → Option (FS × DCtr)
  | [], st => some st
  | (folder, types) :: cfgRest, st =>
    match distFolderVers hash fo languages origLang (destRoot ++ parent folder) folder
        types versions versions st with
    | none => none
    | some st2 =>
      distributeOtherFiles hash fo languages origLang destRoot parent versions cfgRest st2

/-- The version-tier resolution of `distribute`: `None` and `'v1.0'` request
the base tier alone; any other version yields base plus overlay, or the
overlay alone under `version_only`. -/
def resolveVersions (version : Option Str) (version_only : Bool) : List (Option Str) :=
  if version = none ∨ version = some ("v1.0".toList) then [none]
  else if version_only = false then [none, version]
  else [version]

/-- Source `distribute`: resolve the version tiers, then distribute. -/
def distribute (hash : Nat → Nat) (fo : Bool) (languages : List Str) (origLang : Str)
    (destRoot : Path) (parent : Str → Path) (version : Option Str) (version_only : Bool)
    (cfg : List (Str × List Str)) (fs : FS) : Option (FS × DCtr) :=
  distributeOtherFiles hash fo languages origLang destRoot parent
    (resolveVersions version version_only) cfg (fs, DCtr.zero)

/-! ## Claim C7 -/

/-- Claim C7 counterexample: requesting version `"v1.0"` with
`version_only = false` resolves to the base tier alone, not to
`[base, "v1.0"]` as the claim's second arm requires: `distribute` aliases
`'v1.0'` to the base tier. -/
theorem resolveVersions_v10_cex :
    resolveVersions (some ("v1.0".toList)) false = [none] ∧
    ([none] : List (Option Str)) ≠ [none, some ("v1.0".toList)] ∧
    resolveVersions (some ("v1.0".toList)) true = [none] ∧
    ([none] : List (Option Str)) ≠ [some ("v1.0".toList)] := by
  decide

/-- Claim C7 (amended): if no version is requested, or the requested version
is `"v1.0"` (which names the base release), the tiers are `[base]`; for any
other requested version the tiers are `[base, version]` when `version_only`
is false and `[version]` when it is true. -/
theorem resolveVersions_amended (v : Option Str) (vo : Bool) :
    ((v = none ∨ v = some ("v1.0".toList)) → resolveVersions v vo = [none]) ∧
    (v ≠ none → v ≠ some ("v1.0".toList) → vo = false →
      resolveVersions v vo = [none, v]) ∧
    (v ≠ none → v ≠ some ("v1.0".toList) → vo = true →
      resolveVersions v vo = [v]) := by
  refine ⟨fun h => ?_, fun h1 h2 h3 => ?_, fun h1 h2 h3 => ?_⟩
  · rcases h with h | h <;> simp [resolveVersions, h]
  · subst h3
    unfold resolveVersions
    rw [if_neg (by push_neg; exact ⟨h1, h2⟩)]
    simp
  · subst h3
    unfold resolveVersions
    rw [if_neg (by push_neg; exact ⟨h1, h2⟩)]
    simp

/-- Witness for the amended C7 at version `"v1.1"`, both flag values. -/
theorem resolveVersions_amended_witness :
    resolveVersions (some ("v1.1".toList)) false = [none, some ("v1.1".toList)] ∧
    resolveVersions (some ("v1.1".toList)) true = [some ("v1.1".toList)] ∧
    resolveVersions none false = [none] :=
  ⟨(resolveVersions_amended (some ("v1.1".toList)) false).2.1 (by decide) (by decide) rfl,
   (resolveVersions_amended (some ("v1.1".toList)) true).2.2 (by decide) (by decide) rfl,
   (resolveVersions_amended none false).1 (Or.inl rfl)⟩

/-! ## Claim C5 -/

theorem lastSeg_cons {x : Str} {s : Path} (h : s ≠ []) : lastSeg (x :: s) = lastSeg s := by
  unfold lastSeg
  match s with
  | y :: ys => rw [List.getLast?_cons_cons]

theorem mem_walkDir {fs : FS} {dir : Str} {types : List Str} {p : Path} :
    p ∈ walkDir fs dir types ↔
      p ∈ fs.map Prod.fst ∧ p.head? = some dir ∧ extOf (lastSeg p) ∈ types := by
  unfold walkDir
  rw [List.mem_filter]
  simp

theorem joinFolder_lang_inj {f A B : Str} {ver : Option Str} (hA : A ≠ []) (hB : B ≠ [])
    (h : joinFolder f (some A) ver = joinFolder f (some B) ver) : A = B := by
  unfold joinFolder at h
  rw [if_pos (show truthyS (some A) = true by simp [truthyS, hA]),
    if_pos (show truthyS (some B) = true by simp [truthyS, hB])] at h
  have h2 := List.append_cancel_left h
  simpa using h2

/-- A candidate list has claimed the simple name `s` with the file `fA`:
the entry is present and is the only entry for `s`. -/
def ClaimedBy (fA s : Path) (acc : List (Path × Path)) : Prop :=
  (fA, s) ∈ acc ∧ ∀ e ∈ acc, e.2 = s → e = (fA, s)

theorem collectAdd_claimed {fA s : Path} {acc : List (Path × Path)} (f : Path)
    (h : ClaimedBy fA s acc) : ClaimedBy fA s (collectAdd acc f) := by
  obtain ⟨hmem, huniq⟩ := h
  unfold collectAdd
  by_cases hany : acc.any (fun e => decide (e.2 = f.drop 1)) = true
  · rw [if_pos hany]
    exact ⟨hmem, huniq⟩
  · rw [if_neg hany]
    refine ⟨List.mem_append_left _ hmem, ?_⟩
    intro e he h2
    rcases List.mem_append.mp he with h3 | h3
    · exact huniq e h3 h2
    · exfalso
      apply hany
      rw [List.any_eq_true]
      refine ⟨(fA, s), hmem, ?_⟩
      have h4 : f.drop 1 = s := by
        have h5 : e = (f, f.drop 1) := by simpa using h3
        rw [h5] at h2
        exact h2
      simp [h4]

theorem foldl_collectAdd_claimed {fA s : Path} (FL : List Path) :
    ∀ {acc : List (Path × Path)}, ClaimedBy fA s acc →
      ClaimedBy fA s (FL.foldl collectAdd acc) := by
  induction FL with
  | nil => intro acc h; exact h
  | cons f rest ih => intro acc h; exact ih (collectAdd_claimed f h)

theorem langsFold_claimed {fA s : Path} (fs : FS) (folder : Str) (types : List Str)
    (ver : Option Str) (langs : List (Option Str)) :
    ∀ {acc : List (Path × Path)}, ClaimedBy fA s acc →
      ClaimedBy fA s (langs.foldl
        (fun acc lang => (walkDir fs (joinFolder folder lang ver) types).foldl collectAdd acc)
        acc) := by
  induction langs with
  | nil => intro acc h; exact h
  | cons l rest ih => intro acc h; exact ih (foldl_collectAdd_claimed _ h)

theorem collectAdd_unclaimed {s : Path} {acc : List (Path × Path)} {f : Path}
    (hf : f.drop 1 ≠ s) (h : ∀ e ∈ acc, e.2 ≠ s) :
    ∀ e ∈ collectAdd acc f, e.2 ≠ s := by
  intro e he
  unfold collectAdd at he
  by_cases hany : acc.any (fun e => decide (e.2 = f.drop 1)) = true
  · rw [if_pos hany] at he
    exact h e he
  · rw [if_neg hany] at he
    rcases List.mem_append.mp he with h3 | h3
    · exact h e h3
    · have h5 : e = (f, f.drop 1) := by simpa using h3
      rw [h5]
      exact hf

theorem foldl_collectAdd_establish {fA s : Path} (hfs : fA.drop 1 = s) :
    ∀ (FL : List Path) (acc : List (Path × Path)),
      (∀ f ∈ FL, f.drop 1 = s → f = fA) →
      fA ∈ FL →
      (∀ e ∈ acc, e.2 ≠ s) →
      ClaimedBy fA s (FL.foldl collectAdd acc)
  | [], acc, _, hmem, _ => absurd hmem (by simp)
  | f :: rest, acc, hall, hmem, hnone => by
    rw [List.foldl_cons]
    by_cases hfd : f.drop 1 = s
    · have hf : f = fA := hall f (List.mem_cons_self f rest) hfd
      subst hf
      have hany : acc.any (fun e => decide (e.2 = f.drop 1)) = false := by
        rw [List.any_eq_false]
        intro e he
        simp only [decide_eq_true_eq, hfd]
        exact hnone e he
      have hca : collectAdd acc f = acc ++ [(f, f.drop 1)] := by
        unfold collectAdd
        rw [if_neg (by rw [hany]; simp)]
      rw [hca]
      apply foldl_collectAdd_claimed
      constructor
      · rw [hfd]
        exact List.mem_append_right _ (by simp)
      · intro e he h2
        rcases List.mem_append.mp he with h3 | h3
        · exact absurd h2 (hnone e h3)
        · have h5 : e = (f, f.drop 1) := by simpa using h3
          rw [h5, hfd]
    · have hfA : fA ∈ rest := by
        rcases List.mem_cons.mp hmem with h1 | h1
        · exact absurd (h1 ▸ hfs) hfd
        · exact h1
      exact foldl_collectAdd_establish hfs rest (collectAdd acc f)
        (fun g hg => hall g (List.mem_cons_of_mem f hg))
        hfA (collectAdd_unclaimed hfd hnone)

theorem collectAdd_shape {acc : List (Path × Path)} {f : Path}
    (h : ∀ e ∈ acc, e.2 = e.1.drop 1) :
    ∀ e ∈ collectAdd acc f, e.2 = e.1.drop 1 := by
  intro e he
  unfold collectAdd at he
  by_cases hany : acc.any (fun e => decide (e.2 = f.drop 1)) = true
  · rw [if_pos hany] at he
    exact h e he
  · rw [if_neg hany] at he
    rcases List.mem_append.mp he with h3 | h3
    · exact h e h3
    · have h5 : e = (f, f.drop 1) := by simpa using h3
      rw [h5]

theorem foldl_collectAdd_shape (FL : List Path) :
    ∀ {acc : List (Path × Path)}, (∀ e ∈ acc, e.2 = e.1.drop 1) →
      ∀ e ∈ FL.foldl collectAdd acc, e.2 = e.1.drop 1 := by
  induction FL with
  | nil => intro acc h; exact h
  | cons f rest ih => intro acc h; exact ih (collectAdd_shape h)

theorem collectLoop_shape (fs : FS) (folder : Str) (types : List Str) (ver : Option Str)
    (languages : List Str) :
    ∀ e ∈ collectLoop fs folder types ver languages, e.2 = e.1.drop 1 := by
  unfold collectLoop
  generalize languages.map some ++ [none] = langs
  have hgen : ∀ (ls : List (Option Str)) (acc : List (Path × Path)),
      (∀ e ∈ acc, e.2 = e.1.drop 1) →
      ∀ e ∈ ls.foldl
        (fun acc lang => (walkDir fs (joinFolder folder lang ver) types).foldl collectAdd acc)
        acc, e.2 = e.1.drop 1 := by
    intro ls
    induction ls with
    | nil => intro acc h; exact h
    | cons l rest ih => intro acc h; exact ih _ (foldl_collectAdd_shape _ h)
  exact hgen langs [] (by simp)

/-- Claim C5: with preferred languages `[A, B]` (A the higher priority), a
simple name present with different content under both gets collected as the
`A` version: the `A` entry is in the collected list, it is the only entry
for that simple name, the `B` file is never collected, and consequently
whatever `collectFiles` distributes for that simple name is the `A` file. -/
theorem collect_priority (hash : Nat → Nat) (fs : FS) (A B : Str) (folder : Str)
    (types : List Str) (ver : Option Str) (origLang : Str) (s : Path) (ca cb : Nat)
    (hA : A ≠ []) (hB : B ≠ []) (hAB : A ≠ B) (hs : s ≠ [])
    (hfa : fsGet fs (joinFolder folder (some A) ver :: s) = some ca)
    (hfb : fsGet fs (joinFolder folder (some B) ver :: s) = some cb)
    (hdiff : ca ≠ cb)
    (hext : extOf (lastSeg s) ∈ types) :
    (joinFolder folder (some A) ver :: s, s) ∈ collectLoop fs folder types ver [A, B] ∧
    (∀ e ∈ collectLoop fs folder types ver [A, B], e.2 = s →
      e = (joinFolder folder (some A) ver :: s, s)) ∧
    (joinFolder folder (some B) ver :: s) ∉
      (collectLoop fs folder types ver [A, B]).map Prod.fst ∧
    (∀ e ∈ collectFiles hash fs [A, B] origLang folder types ver, e.2 = s →
      e.1 = joinFolder folder (some A) ver :: s) := by
  set dirA := joinFolder folder (some A) ver with hdA
  set dirB := joinFolder folder (some B) ver with hdB
  have hwalkA : (dirA :: s) ∈ walkDir fs dirA types := by
    rw [mem_walkDir]
    exact ⟨fsGet_mem hfa, rfl, by rw [lastSeg_cons hs]; exact hext⟩
  have hallA : ∀ f ∈ walkDir fs dirA types, f.drop 1 = s → f = dirA :: s := by
    intro f hf hfd
    have hh := (mem_walkDir.mp hf).2.1
    match f with
    | x :: t =>
      simp only [List.head?] at hh
      obtain rfl : x = dirA := by injection hh
      have ht : t = s := by simpa using hfd
      rw [ht]
  have hclaim : ClaimedBy (dirA :: s) s (collectLoop fs folder types ver [A, B]) := by
    unfold collectLoop
    simp only [List.map_cons, List.map_nil, List.cons_append, List.nil_append,
      List.foldl_cons]
    apply foldl_collectAdd_claimed
    apply foldl_collectAdd_claimed
    exact @foldl_collectAdd_establish (dirA :: s) s rfl (walkDir fs dirA types) [] hallA
      hwalkA (by simp)
  obtain ⟨hmem, huniq⟩ := hclaim
  have hshape := collectLoop_shape fs folder types ver [A, B]
  have hnotB : (dirB :: s) ∉ (collectLoop fs folder types ver [A, B]).map Prod.fst := by
    intro hmemB
    rw [List.mem_map] at hmemB
    obtain ⟨e, he, he1⟩ := hmemB
    have he2 : e.2 = s := by
      rw [hshape e he, he1]
      rfl
    have heq := huniq e he he2
    rw [heq] at he1
    have h6 : dirA :: s = dirB :: s := he1
    have hAB2 : dirA = dirB := by injection h6
    exact hAB (joinFolder_lang_inj hA hB hAB2)
  refine ⟨hmem, huniq, hnotB, ?_⟩
  intro e he h2
  unfold collectFiles at he
  have he3 := List.mem_of_mem_filter he
  have := huniq e he3 h2
  rw [this]

def c5fs : FS :=
  [(["Script_EN".toList, "a.dat".toList], 10), (["Script_DE".toList, "a.dat".toList], 20),
   (["Script_JA".toList, "a.dat".toList], 30)]

/-- Witness for C5: `a.dat` present under `Script_EN` and `Script_DE` with
different content; the `EN` (higher-priority) version is collected. -/
theorem collect_priority_witness :
    (joinFolder "Script".toList (some "EN".toList) none :: ["a.dat".toList],
        ["a.dat".toList]) ∈
      collectLoop c5fs "Script".toList [".dat".toList] none ["EN".toList, "DE".toList] ∧
    (∀ e ∈ collectLoop c5fs "Script".toList [".dat".toList] none
        ["EN".toList, "DE".toList], e.2 = ["a.dat".toList] →
      e = (joinFolder "Script".toList (some "EN".toList) none :: ["a.dat".toList],
        ["a.dat".toList])) ∧
    (joinFolder "Script".toList (some "DE".toList) none :: ["a.dat".toList]) ∉
      (collectLoop c5fs "Script".toList [".dat".toList] none
        ["EN".toList, "DE".toList]).map Prod.fst ∧
    (∀ e ∈ collectFiles (fun n => n) c5fs ["EN".toList, "DE".toList] "JA".toList
        "Script".toList [".dat".toList] none, e.2 = ["a.dat".toList] →
      e.1 = joinFolder "Script".toList (some "EN".toList) none :: ["a.dat".toList]) :=
  collect_priority (fun n => n) c5fs "EN".toList "DE".toList "Script".toList
    [".dat".toList] none "JA".toList ["a.dat".toList] 10 20
    (by decide) (by decide) (by decide) (by decide)
    (by decide) (by decide) (by decide) (by decide)

/-! ## Claim C6 -/

theorem copyStep_frame {hash : Nat → Nat} {fo : Bool} {destFolder : Path}
    {st st2 : FS × DCtr} {e : Path × Path}
    (h : copyStep hash fo destFolder st e = some st2) :
    ∀ q, q ≠ destFolder ++ e.2 → fsGet st2.1 q = fsGet st.1 q := by
  intro q hq
  simp only [copyStep] at h
  by_cases hd : fsExists st.1 (destFolder ++ e.2) = true
  · rw [if_pos hd] at h
    cases hg1 : fsGet st.1 (destFolder ++ e.2) with
    | none =>
      rw [hg1] at h
      simp at h
    | some dc =>
      cases hg2 : fsGet st.1 e.1 with
      | none =>
        rw [hg1, hg2] at h
        simp at h
      | some sc =>
        rw [hg1, hg2] at h
        have h' : (if fo = false ∧ hash dc = hash sc then
              some (st.1, { st.2 with keep := st.2.keep + 1 })
            else
              some (fsSet (fsRemove st.1 (destFolder ++ e.2)) (destFolder ++ e.2) sc,
                { st.2 with update := st.2.update + 1 })) = some st2 := h
        by_cases hk : fo = false ∧ hash dc = hash sc
        · rw [if_pos hk] at h'
          cases h'
          rfl
        · rw [if_neg hk] at h'
          cases h'
          exact (fsGet_set_ne _ _ hq).trans (fsGet_remove_ne _ hq)
  · rw [if_neg hd] at h
    cases hg2 : fsGet st.1 e.1 with
    | none =>
      rw [hg2] at h
      simp at h
    | some sc =>
      rw [hg2] at h
      cases h
      exact fsGet_set_ne _ _ hq

theorem distributeTier_preserves (hash : Nat → Nat) (fo : Bool) (destFolder : Path)
    (q : Path) :
    ∀ (files : List (Path × Path)) (st st2 : FS × DCtr),
    (∀ e ∈ files, destFolder ++ e.2 ≠ q) →
    distributeTier hash fo destFolder files st = some st2 →
    fsGet st2.1 q = fsGet st.1 q
  | [], st, st2, _, h => by
    simp only [distributeTier] at h
    cases h
    rfl
  | e :: rest, st, st2, hne, h => by
    simp only [distributeTier] at h
    cases hcs : copyStep hash fo destFolder st e with
    | none =>
      rw [hcs] at h
      simp at h
    | some st1 =>
      rw [hcs] at h
      have h2 := distributeTier_preserves hash fo destFolder q rest st1 st2
        (fun e2 he2 => hne e2 (List.mem_cons_of_mem e he2)) h
      rw [h2, copyStep_frame hcs q (hne e (List.mem_cons_self e rest)).symm]

/-- Claim C6: with two tiers `[None, V]`, every base-tier candidate whose
simple name appears among the matching files of the overlay original-language
folder `joinFolder folder origLang V` is dropped before the copy loop: no
candidate with that simple name remains, and the base-tier copy loop leaves
the destination file for that simple name untouched and counts nothing for
it — even if an edit for it exists under a preferred language of the base
tier. -/
theorem baseTier_overlay_exclusion (hash : Nat → Nat) (fs : FS) (languages : List Str)
    (origLang : Str) (folder : Str) (types : List Str) (V : Str) (s : Path) (uc : Nat)
    (A : Str) (ec : Nat)
    (hs : s ≠ [])
    (hu : fsGet fs (joinFolder folder (some origLang) (some V) :: s) = some uc)
    (hext : extOf (lastSeg s) ∈ types)
    (hA : A ∈ languages)
    (hedit : fsGet fs (joinFolder folder (some A) none :: s) = some ec) :
    (∀ e ∈ tierCandidates hash fs languages origLang folder types [none, some V] none,
      e.2 ≠ s) ∧
    (∀ (fo : Bool) (destFolder : Path) (st st2 : FS × DCtr),
      distributeTier hash fo destFolder
          (tierCandidates hash fs languages origLang folder types [none, some V] none) st =
        some st2 →
      fsGet st2.1 (destFolder ++ s) = fsGet st.1 (destFolder ++ s)) := by
  have hmemU : s ∈ (walkDir fs (joinFolder folder (some origLang) (some V)) types).map
      (fun p => p.drop 1) := by
    rw [List.mem_map]
    refine ⟨joinFolder folder (some origLang) (some V) :: s, ?_, by simp⟩
    rw [mem_walkDir]
    exact ⟨fsGet_mem hu, rfl, by rw [lastSeg_cons hs]; exact hext⟩
  have hdrop : ∀ e ∈ tierCandidates hash fs languages origLang folder types
      [none, some V] none, e.2 ≠ s := by
    intro e he h2
    simp only [tierCandidates] at he
    have hp := List.of_mem_filter he
    rw [h2] at hp
    rw [Bool.not_eq_true', decide_eq_false_iff_not] at hp
    exact hp hmemU
  refine ⟨hdrop, ?_⟩
  intro fo destFolder st st2 h
  exact distributeTier_preserves hash fo destFolder (destFolder ++ s) _ st st2
    (fun e he hq => hdrop e he (List.append_cancel_left hq)) h

def c6fs : FS :=
  [(["Script_JA".toList, "a.dat".toList], 1), (["Script_EN".toList, "a.dat".toList], 2),
   (["Script_EN".toList, "b.dat".toList], 4), (["Script_v1.1_JA".toList, "a.dat".toList], 3)]

/-- Witness for C6: `a.dat` changed in the `v1.1` original and also edited
under `Script_EN`; the base tier distributes only `b.dat` and leaves the
destination `a.dat` untouched. -/
theorem baseTier_overlay_exclusion_witness :
    fsGet (fsSet c6fs ["_dist".toList, "b.dat".toList] 4)
        (["_dist".toList] ++ ["a.dat".toList]) =
      fsGet c6fs (["_dist".toList] ++ ["a.dat".toList]) :=
  (baseTier_overlay_exclusion (fun n => n) c6fs ["EN".toList] "JA".toList "Script".toList
    [".dat".toList] "v1.1".toList ["a.dat".toList] 3 "EN".toList 2
    (by decide) (by decide) (by decide) (by decide) (by decide)).2
    false ["_dist".toList] (c6fs, DCtr.zero)
    (fsSet c6fs ["_dist".toList, "b.dat".toList] 4, ⟨1, 0, 0⟩) (by decide)

/-! ## Params and claim C9 -/

/-- A loaded JSON configuration value (numbers modelled as integers). -/
inductive JVal where
  | null : JVal
  | jbool : Bool → JVal
  | jnum : Int → JVal
  | jstr : Str → JVal
  | jarr : List JVal → JVal
  | jobj : List (Str × JVal) → JVal

/-- Python truthiness of a JSON value. -/
def JVal.truthy : JVal → Bool
  | JVal.null => false
  | JVal.jbool b => b
  | JVal.jnum n => decide (n ≠ 0)
  | JVal.jstr s => decide (s ≠ [])
  | JVal.jarr l => !l.isEmpty
  | JVal.jobj l => !l.isEmpty

/-- Dictionary lookup in the loaded configuration. -/
def lookupKey (k : Str) (l : List (Str × JVal)) : Option JVal :=
  (l.find? (fun e => decide (e.1 = k))).map Prod.snd

/-- One step of `os.path.join(*d.split('/'))` with the POSIX separator. -/
def joinSeg (path seg : Str) : Str :=
  if path = [] ∨ path.getLast? = some '/' then path ++ seg else path ++ '/' :: seg

/-- Python `parseDir(d)`: split the configured directory on `'/'` and join with the
platform separator. -/
def parseDir (d : Str) : Str :=
  match splitChar '/' d with
  | [] => []
  | p :: ps => ps.foldl joinSeg p

/-- The `PARENT` value transform of `Params.parseParams`.  A non-object
value or a non-string entry, on which the Python code would raise before
reaching the verification step, is passed through unchanged; claim C9 is
therefore stated under `wfParent`. -/
def parseParentVal : JVal → JVal
  | JVal.jobj l =>
    JVal.jobj (l.map (fun kv =>
      match kv.2 with
      | JVal.jstr s => (kv.1, JVal.jstr (parseDir s))
      | v => (kv.1, v)))
  | v => v

/-- Source `Params.parseParams`: rewrite the `PARENT` mapping's directory values. -/
def parseParams (prms : List (Str × JVal)) : List (Str × JVal) :=
  prms.map (fun e =>
    if e.1 = "PARENT".toList then (e.1, parseParentVal e.2) else e)

/-- Source `Params.verifyParams`: raise `UnsupportedParamException('PAT')` when the
legacy `PAT` key is present with a truthy value. -/
def verifyParams (prms : List (Str × JVal)) : Except Str Unit :=
  match lookupKey "PAT".toList prms with
  | some v => if v.truthy then Except.error "PAT".toList else Except.ok ()
  | none => Except.ok ()

/-- Source `Params.loadParams` after the configuration file was read (or the
defaults substituted): parse, then verify; `Except.error` is the raised
`UnsupportedParamException`.  No filesystem access happens here: the
operations enumerate files only after loading succeeded. -/
def loadParams (loaded : List (Str × JVal)) : Except Str (List (Str × JVal)) :=
  let prms := parseParams loaded
  match verifyParams prms with
  | Except.error err => Except.error err
  | Except.ok _ => Except.ok prms

/-- Presence of a truthy `PAT` key. -/
def hasTruthyPAT (cfg : List (Str × JVal)) : Bool :=
  match lookupKey "PAT".toList cfg with
  | some v => v.truthy
  | none => false

/-- Well-formedness of the `PARENT` entry: an object with string values, as
the configuration surface defines it. -/
def wfParent (cfg : List (Str × JVal)) : Bool :=
  cfg.all (fun e =>
    if e.1 = "PARENT".toList then
      match e.2 with
      | JVal.jobj l =>
        l.all (fun kv =>
          match kv.2 with
          | JVal.jstr _ => true
          | _ => false)
      | _ => false
    else true)

theorem lookupKey_PAT_parseParams (cfg : List (Str × JVal)) :
    lookupKey "PAT".toList (parseParams cfg) = lookupKey "PAT".toList cfg := by
  induction cfg with
  | nil => rfl
  | cons e rest ih =>
    unfold parseParams lookupKey at ih ⊢
    simp only [List.map_cons]
    by_cases hk : e.1 = "PARENT".toList
    · rw [if_pos hk]
      rw [List.find?_cons_of_neg _ (by rw [hk]; decide),
        List.find?_cons_of_neg _ (by rw [hk]; decide)]
      exact ih
    · rw [if_neg hk]
      by_cases hp : e.1 = "PAT".toList
      · rw [List.find?_cons_of_pos _ (by simp only [decide_eq_true_eq]; exact hp),
          List.find?_cons_of_pos _ (by simp only [decide_eq_true_eq]; exact hp)]
      · rw [List.find?_cons_of_neg _ (by simp only [decide_eq_true_eq]; exact hp),
          List.find?_cons_of_neg _ (by simp only [decide_eq_true_eq]; exact hp)]
        exact ih

/-- Claim C9: on a well-formed configuration, `loadParams` raises
`UnsupportedParamException('PAT')` exactly when the legacy `PAT` key is
present with a truthy value, before any file is enumerated or touched (the
model performs no filesystem access), and completes without raising when
`PAT` is absent or falsy. -/
theorem loadParams_PAT (cfg : List (Str × JVal)) (hwf : wfParent cfg = true) :
    (hasTruthyPAT cfg = true → loadParams cfg = Except.error "PAT".toList) ∧
    (hasTruthyPAT cfg = false → loadParams cfg = Except.ok (parseParams cfg)) := by
  have hlk := lookupKey_PAT_parseParams cfg
  constructor
  · intro ht
    unfold hasTruthyPAT at ht
    simp only [loadParams, verifyParams]
    rw [hlk]
    cases hv : lookupKey "PAT".toList cfg with
    | none => rw [hv] at ht; simp at ht
    | some v =>
      rw [hv] at ht
      have ht2 : v.truthy = true := ht
      simp [ht2]
  · intro ht
    unfold hasTruthyPAT at ht
    simp only [loadParams, verifyParams]
    rw [hlk]
    cases hv : lookupKey "PAT".toList cfg with
    | none => simp
    | some v =>
      rw [hv] at ht
      have ht2 : v.truthy = false := ht
      simp [ht2]

def c9cfgT : List (Str × JVal) := [("PAT".toList, JVal.jbool true)]

def c9cfgF : List (Str × JVal) :=
  [("PAT".toList, JVal.jnum 0),
   ("PARENT".toList, JVal.jobj [("Script".toList, JVal.jstr "a/b".toList)])]

/-- Witness for C9: a configuration with `PAT: true` fails to load; one with
`PAT: 0` (falsy) and a well-formed `PARENT` loads successfully. -/
theorem loadParams_PAT_witness :
    loadParams c9cfgT = Except.error "PAT".toList ∧
    loadParams c9cfgF = Except.ok (parseParams c9cfgF) :=
  ⟨(loadParams_PAT c9cfgT (by decide)).1 (by decide),
   (loadParams_PAT c9cfgF (by decide)).2 (by decide)⟩

end TranslationPatcher
